import Mathlib

/-!
Verification of the calendar-overlay application (andreashustad/calendar-app).

This file shallow-embeds the pure computational core of the repository:

* the interval algebra of `src/lib/backoff.ts` / `src/lib/freebusy.ts`
  (`mergeIntervals`, `clampToWorkday`, `invertBusyToFree`),
* the wait-time computation of `backoff`,
* the per-entry busy classification and pagination loops of the provider
  adapters in `src/components/CalendarOverlayApp.tsx`
  (`fetchGraphFreeBusy`, `fetchGoogleFreeBusy`, `fetchGraphDetails`,
  `fetchGoogleDetails`),
* the `refresh` orchestration of the same component,

and proves the stated correctness properties about them.

Modelling conventions:

* JavaScript `Date` values are modelled as integers (milliseconds since the
  epoch).  `d.setHours(h, 0, 0, 0)` applied to a date whose local midnight is
  `day` yields `day + h * 3600000` (no DST transitions are modelled; the
  interval algebra is agnostic to how the two workday bounds are produced).
* The TypeScript field `end` is a reserved word in Lean and is rendered as
  `stop` throughout.
* Fallible/network code is modelled by passing the list of HTTP responses the
  code would receive, and returning `Except` together with the number of
  requests performed.
-/

namespace CalendarApp

/-- `Interval` from `src/lib/freebusy.ts`: `{ start: Date; end: Date }`.
Dates are milliseconds; `stop` renders the reserved field name `end`. -/
structure Interval where
  start : ℤ
  stop : ℤ
deriving DecidableEq

/-- A point in time `t` lies inside interval `i` (half-open `[start, end)`). -/
def memI (t : ℤ) (i : Interval) : Prop := i.start ≤ t ∧ t < i.stop

instance (t : ℤ) (i : Interval) : Decidable (memI t i) := by
  unfold memI; infer_instance

/-- Some interval of the list covers the point `t`. -/
def covers (l : List Interval) (t : ℤ) : Prop := ∃ i ∈ l, memI t i

/-- How many intervals of the list cover the point `t`. -/
def countCov (l : List Interval) (t : ℤ) : ℕ :=
  l.countP (fun i => decide (memI t i))

/-- The sort key of `intervals.sort((a, b) => a.start.getTime() - b.start.getTime())`. -/
def Interval.leStart (a b : Interval) : Prop := a.start ≤ b.start

instance : DecidableRel Interval.leStart := fun a b => Int.decLe a.start b.start

instance : IsTotal Interval Interval.leStart := ⟨fun a b => Int.le_total a.start b.start⟩

instance : IsTrans Interval Interval.leStart := ⟨fun _ _ _ h h2 => le_trans h h2⟩

/-- The sort step of `mergeIntervals`:
`[...intervals].sort((a, b) => a.start.getTime() - b.start.getTime())`.
JavaScript's built-in sort is stable; `List.insertionSort` with a `≤` key is
a stable sort and therefore produces the same list. -/
def sortByStart (l : List Interval) : List Interval :=
  List.insertionSort Interval.leStart l

/-- The scan loop of `mergeIntervals`: `prev` is the interval at the tail of
the `merged` array; whenever `curr.start <= prev.end` the tail interval's end
is extended to `max(prev.end, curr.end)`, otherwise `curr` is pushed.
(The in-place update `prev.end = ...` of the source is rendered by rebuilding
the accumulator interval; the aliasing side effect on the caller's objects is
modelled separately by `mergeIntervalsAlias`.) -/
def mergeGo (cur : Interval) : List Interval → List Interval
  | [] => [cur]
  | y :: ys =>
    if y.start ≤ cur.stop then mergeGo ⟨cur.start, max cur.stop y.stop⟩ ys
    else cur :: mergeGo y ys

/-- `mergeIntervals` from `src/lib/freebusy.ts`: sort a copy of the input by
start, then fold overlapping-or-touching intervals together. -/
def mergeIntervals (intervals : List Interval) : List Interval :=
  match sortByStart intervals with
  | [] => []
  | x :: xs => mergeGo x xs

/-- Milliseconds per hour (`setHours` offset unit). -/
def msPerHour : ℤ := 3600000

/-- Milliseconds per minute (the `60000` in `invertBusyToFree`'s filter). -/
def msPerMin : ℤ := 60000

/-- `clampToWorkday` from `src/lib/freebusy.ts`: intersect every interval
with `[day@workStart, day@workEnd]` and drop the ones that became empty
(`filter(i => i.end > i.start)`).  `day` is the local midnight of `date`. -/
def clampToWorkday (intervals : List Interval) (day workStart workEnd : ℤ) :
    List Interval :=
  let dayStart := day + workStart * msPerHour
  let dayEnd := day + workEnd * msPerHour
  (intervals.map fun i => ⟨max i.start dayStart, min i.stop dayEnd⟩).filter
    fun i => decide (i.start < i.stop)

/-- The cursor loop of `invertBusyToFree`: for each busy interval `b`, emit
the gap `[cursor, b.start)` when positive, then advance the cursor to `b.end`
when that moves it forward.  Returns the emitted gaps and the final cursor. -/
def invertScan (cursor : ℤ) : List Interval → List Interval × ℤ
  | [] => ([], cursor)
  | b :: bs =>
    let pre : List Interval :=
      if cursor < b.start then [⟨cursor, b.start⟩] else []
    let c := if cursor < b.stop then b.stop else cursor
    let r := invertScan c bs
    (pre ++ r.1, r.2)

/-- `invertBusyToFree` before its final `minMinutes` filter: merge the busy
intervals clamped to the workday, scan the workday left to right, and append
the trailing gap `[cursor, dayEnd)` when positive. -/
def invertCore (busy : List Interval) (day workStart workEnd : ℤ) :
    List Interval :=
  let dayStart := day + workStart * msPerHour
  let dayEnd := day + workEnd * msPerHour
  let merged := mergeIntervals (clampToWorkday busy day workStart workEnd)
  let r := invertScan dayStart merged
  r.1 ++ (if r.2 < dayEnd then [⟨r.2, dayEnd⟩] else [])

/-- `invertBusyToFree` from `src/lib/freebusy.ts`.  The final filter
`(i.end - i.start) / 60000 >= minMinutes` is, over exact arithmetic,
`minMinutes * 60000 ≤ i.end - i.start`. -/
def invertBusyToFree (busy : List Interval) (day workStart workEnd minMinutes : ℤ) :
    List Interval :=
  (invertCore busy day workStart workEnd).filter
    fun i => decide (minMinutes * msPerMin ≤ i.stop - i.start)

/-- Sort key used when sorting object identities (positions in the caller's
array) by the `start` field of the referenced interval. -/
def pairLeStart (a b : ℕ × Interval) : Prop := a.2.start ≤ b.2.start

instance : DecidableRel pairLeStart := fun a b => Int.decLe a.2.start b.2.start

instance : IsTotal (ℕ × Interval) pairLeStart := ⟨fun a b => Int.le_total a.2.start b.2.start⟩

instance : IsTrans (ℕ × Interval) pairLeStart := ⟨fun _ _ _ h h2 => le_trans h h2⟩

/-- Object-identity-aware rendering of the `mergeIntervals` scan.  The
caller's interval objects form a heap indexed by position in the input array;
`lastIdx` is the object referenced by `merged[merged.length - 1]`.  The
source line `prev.end = new Date(Math.max(...))` is an in-place update of
that object, rendered as `heap.set lastIdx ...`.  Returns the final heap and
the object identities held by the `merged` array. -/
def heapGo (heap : List Interval) (outRev : List ℕ) (lastIdx : ℕ) :
    List (ℕ × Interval) → List Interval × List ℕ
  | [] => (heap, (lastIdx :: outRev).reverse)
  | (i, _) :: rest =>
    let prev := heap.getD lastIdx ⟨0, 0⟩
    let curr := heap.getD i ⟨0, 0⟩
    if curr.start ≤ prev.stop then
      heapGo (heap.set lastIdx ⟨prev.start, max prev.stop curr.stop⟩) outRev lastIdx rest
    else heapGo heap (lastIdx :: outRev) i rest

/-- `mergeIntervals` with object identity tracked: first component is the
returned merged array (the final values of the objects it references), second
component is the final state of the caller's input interval objects, in their
original order.  `[...intervals]` copies the array but shares the interval
objects, so in-place updates of `prev.end` are visible to the caller. -/
def mergeIntervalsAlias (l : List Interval) : List Interval × List Interval :=
  match List.insertionSort pairLeStart l.enum with
  | [] => ([], l)
  | (i, _) :: rest =>
    let r := heapGo l [] i rest
    (r.2.map fun j => r.1.getD j ⟨0, 0⟩, r.1)

/-- The wait duration computed by `backoff` in `src/lib/backoff.ts`, in
milliseconds.  `retryAfter` models the `Retry-After` header: `none` when the
header is absent (or empty, hence falsy), `some none` when it is present but
`Number(retryAfter)` is `NaN`, and `some (some sec)` when it parses to `sec`.
`r` is the value drawn from `Math.random()` (uniform on `[0, 1)`). -/
def backoffWaitMs (retryAfter : Option (Option ℚ)) (r baseMs capMs : ℚ) : ℚ :=
  match retryAfter with
  | some (some sec) => (sec + r) * 1000
  | _ => min (baseMs * (1 + r * 2)) capMs

/-- Default `baseMs` of `backoff`. -/
def backoffBaseMs : ℚ := 1000

/-- Default `capMs` of `backoff`. -/
def backoffCapMs : ℚ := 8000

/-- `resp.ok` of the Fetch API: status in the range 200–299. -/
def httpOk (s : ℕ) : Bool := 200 ≤ s && s < 300

/-- One entry of a Graph `calendarView` page, as consumed by
`fetchGraphFreeBusy`: the `showAs` field (`none` models a missing/falsy
value, folded to `""` by `e.showAs || ""`) and the parsed start/end times. -/
structure GraphViewEntry where
  showAs : Option String
  startMs : ℤ
  endMs : ℤ

/-- The entry loop of `fetchGraphFreeBusy`: an entry contributes a busy block
when its lower-cased `showAs` is not `"free"` and its end is strictly after
its start. -/
def graphEntriesBusy : List GraphViewEntry → List Interval
  | [] => []
  | e :: es =>
    let showAs := (e.showAs.getD "").toLower
    if showAs ≠ "free" then
      (if e.startMs < e.endMs then [⟨e.startMs, e.endMs⟩] else [])
        ++ graphEntriesBusy es
    else graphEntriesBusy es

/-- One HTTP response received by `fetchGraphFreeBusy`'s `while (url)` loop:
its status, the entries of `data.value`, and whether `data["@odata.nextLink"]`
is set. -/
structure GraphPage where
  status : ℕ
  entries : List GraphViewEntry
  nextLink : Bool

/-- The `while (url)` loop of `fetchGraphFreeBusy`, driven by the stream of
responses the network returns (429/503 responses are consumed by `backoff`
and the same request is retried on the next response; an exhausted stream
models the url becoming null).  Returns the number of requests performed and
the outcome. -/
def graphBusyLoop : List GraphPage → ℕ × Except String (List Interval)
  | [] => (0, .ok [])
  | p :: ps =>
    if p.status = 429 ∨ p.status = 503 then
      let r := graphBusyLoop ps
      (r.1 + 1, r.2)
    else if ¬ httpOk p.status then
      (1, .error ("Graph calendarView: " ++ toString p.status))
    else
      let blocks := graphEntriesBusy p.entries
      if p.nextLink then
        let r := graphBusyLoop ps
        (r.1 + 1, match r.2 with
          | .ok bs => .ok (blocks ++ bs)
          | .error e => .error e)
      else (1, .ok blocks)

/-- `fetchGraphFreeBusy`: `getMsToken()` returning `null` (no Microsoft
account established) short-circuits to an empty result with no request. -/
def fetchGraphFreeBusy (token : Option String) (pages : List GraphPage) :
    ℕ × Except String (List Interval) :=
  match token with
  | none => (0, .ok [])
  | some _ => graphBusyLoop pages

/-- The mapping and filter applied by `fetchGoogleFreeBusy` to
`data.calendars.primary.busy`: build intervals, keep those with
`i.end > i.start`. -/
def googleBusyOf (ranges : List (ℤ × ℤ)) : List Interval :=
  (ranges.map fun b => (⟨b.1, b.2⟩ : Interval)).filter
    fun i => decide (i.start < i.stop)

/-- One HTTP response received by `fetchGoogleFreeBusy`'s `while (true)`
loop: status, the optional `error.message` of the error body, and the busy
ranges of the success body. -/
structure GooglePage where
  status : ℕ
  errMsg : Option String
  busy : List (ℤ × ℤ)

/-- The `while (true)` loop of `fetchGoogleFreeBusy`: retry on 429/503,
otherwise fail with the tagged message or return the filtered busy list. -/
def googleBusyLoop : List GooglePage → ℕ × Except String (List Interval)
  | [] => (0, .ok [])
  | p :: ps =>
    if p.status = 429 ∨ p.status = 503 then
      let r := googleBusyLoop ps
      (r.1 + 1, r.2)
    else if ¬ httpOk p.status then
      (1, .error ("Google freeBusy: " ++ toString p.status ++
        (match p.errMsg with
         | some m => " – " ++ m
         | none => "")))
    else (1, .ok (googleBusyOf p.busy))

/-- `fetchGoogleFreeBusy`: a null `googleTokenRef.current` short-circuits to
an empty result with no request. -/
def fetchGoogleFreeBusy (token : Option String) (pages : List GooglePage) :
    ℕ × Except String (List Interval) :=
  match token with
  | none => (0, .ok [])
  | some _ => googleBusyLoop pages

/-- The `Source` union type: `"google" | "microsoft"`. -/
inductive Source where
  | google
  | microsoft
deriving DecidableEq

/-- `EventItem` of `CalendarOverlayApp.tsx` (spec name: `EventDetail`).  In
the source `title` is always assigned a string; `location` stays `undefined`
when the payload carries none. -/
structure EventItem where
  source : Source
  start : ℤ
  stop : ℤ
  title : String
  location : Option String
  isPrivate : Bool
deriving DecidableEq

/-- One entry of a Graph `calendarView` details page, as consumed by
`fetchGraphDetails`: `sensitivity`, `subject` (`none` models missing/falsy,
folded by `e.subject || "(uten tittel)"`), `location?.displayName`, and the
parsed start/end times. -/
structure GraphDetailEntry where
  sensitivity : Option String
  subject : Option String
  locationName : Option String
  startMs : ℤ
  endMs : ℤ

/-- The entry loop of `fetchGraphDetails`: `isPriv` is
`e.sensitivity === "private"`; a private entry's title is the placeholder
`"(Privat)"`; `location` is `e.location?.displayName` unconditionally. -/
def graphDetailItems : List GraphDetailEntry → List EventItem
  | [] => []
  | e :: es =>
    let isPriv := e.sensitivity = some "private"
    { source := Source.microsoft
      start := e.startMs
      stop := e.endMs
      title := if isPriv then "(Privat)" else e.subject.getD "(uten tittel)"
      location := e.locationName
      isPrivate := isPriv } :: graphDetailItems es

instance (e : GraphDetailEntry) : Decidable (e.sensitivity = some "private") := by
  infer_instance

/-- One HTTP response received by `fetchGraphDetails`'s `while (url)` loop. -/
structure GraphDetailPage where
  status : ℕ
  entries : List GraphDetailEntry
  nextLink : Bool

/-- The `while (url)` loop of `fetchGraphDetails` (same retry/pagination
discipline as `graphBusyLoop`, error tag `Graph details`). -/
def graphDetailLoop : List GraphDetailPage → ℕ × Except String (List EventItem)
  | [] => (0, .ok [])
  | p :: ps =>
    if p.status = 429 ∨ p.status = 503 then
      let r := graphDetailLoop ps
      (r.1 + 1, r.2)
    else if ¬ httpOk p.status then
      (1, .error ("Graph details: " ++ toString p.status))
    else
      let items := graphDetailItems p.entries
      if p.nextLink then
        let r := graphDetailLoop ps
        (r.1 + 1, match r.2 with
          | .ok xs => .ok (items ++ xs)
          | .error e => .error e)
      else (1, .ok items)

/-- `fetchGraphDetails`: no token means empty result and no request;
otherwise run the page loop and apply the final
`items.filter((x) => x.end > x.start)`. -/
def fetchGraphDetails (token : Option String) (pages : List GraphDetailPage) :
    ℕ × Except String (List EventItem) :=
  match token with
  | none => (0, .ok [])
  | some _ =>
    let r := graphDetailLoop pages
    (r.1, match r.2 with
      | .ok items => .ok (items.filter fun x => decide (x.start < x.stop))
      | .error e => .error e)

/-- One entry of a Google events page, as consumed by `fetchGoogleDetails`:
`visibility`, `summary`, `location`, and the parsed start/end times (the
source parses either `dateTime` or an all-day `date`; the model carries the
parsed result). -/
structure GoogleDetailEntry where
  visibility : Option String
  summary : Option String
  location : Option String
  startMs : ℤ
  endMs : ℤ

/-- The entry loop of `fetchGoogleDetails`: `isPriv` is
`e.visibility === "private"`; a private entry's title is the placeholder
`"(Privat)"`; `location` is `e.location` unconditionally. -/
def googleDetailItems : List GoogleDetailEntry → List EventItem
  | [] => []
  | e :: es =>
    let isPriv := e.visibility = some "private"
    { source := Source.google
      start := e.startMs
      stop := e.endMs
      title := if isPriv then "(Privat)" else e.summary.getD "(uten tittel)"
      location := e.location
      isPrivate := isPriv } :: googleDetailItems es

instance (e : GoogleDetailEntry) : Decidable (e.visibility = some "private") := by
  infer_instance

/-- One HTTP response received by `fetchGoogleDetails`'s `while (true)` loop. -/
structure GoogleDetailPage where
  status : ℕ
  entries : List GoogleDetailEntry
  nextPageToken : Bool

/-- The `while (true)` loop of `fetchGoogleDetails`: retry on 429/503, fail
with the tagged message on other non-2xx, accumulate items across pages while
`nextPageToken` is set. -/
def googleDetailLoop : List GoogleDetailPage → ℕ × Except String (List EventItem)
  | [] => (0, .ok [])
  | p :: ps =>
    if p.status = 429 ∨ p.status = 503 then
      let r := googleDetailLoop ps
      (r.1 + 1, r.2)
    else if ¬ httpOk p.status then
      (1, .error ("Google details: " ++ toString p.status))
    else
      let items := googleDetailItems p.entries
      if p.nextPageToken then
        let r := googleDetailLoop ps
        (r.1 + 1, match r.2 with
          | .ok xs => .ok (items ++ xs)
          | .error e => .error e)
      else (1, .ok items)

/-- `fetchGoogleDetails`: no token means empty result and no request;
otherwise run the page loop and apply the final
`items.filter((x) => x.end > x.start)`. -/
def fetchGoogleDetails (token : Option String) (pages : List GoogleDetailPage) :
    ℕ × Except String (List EventItem) :=
  match token with
  | none => (0, .ok [])
  | some _ =>
    let r := googleDetailLoop pages
    (r.1, match r.2 with
      | .ok items => .ok (items.filter fun x => decide (x.start < x.stop))
      | .error e => .error e)

/-- `BusyBlock`: an `Interval` tagged with its provider. -/
structure BusyBlock where
  start : ℤ
  stop : ℤ
  source : Source
deriving DecidableEq

/-- The component state touched by `refresh`: the `busy`, `events`, `err` and
`loading` `useState` cells. -/
structure AppState where
  busy : List BusyBlock
  events : List EventItem
  err : Option String
  loading : Bool

/-- Sort key of `[...msDet, ...gDet].sort((a, b) => a.start.getTime() - b.start.getTime())`. -/
def EventItem.leStart (a b : EventItem) : Prop := a.start ≤ b.start

instance : DecidableRel EventItem.leStart := fun a b => Int.decLe a.start b.start

/-- The stable sort of the details list in `refresh`. -/
def sortEventsByStart (l : List EventItem) : List EventItem :=
  List.insertionSort EventItem.leStart l

/-- `Promise.all` over two settled promises.  `Promise.all` rejects with the
first rejection in real time; when both reject the surfaced error is
timing-dependent, modelled here as the left one. -/
def promiseAll2 {α β : Type} :
    Except String α → Except String β → Except String (α × β)
  | .error e, _ => .error e
  | .ok _, .error e => .error e
  | .ok a, .ok b => .ok (a, b)

/-- `refresh` of `CalendarOverlayApp.tsx`, as a state transformer over the
outcomes of the four fetches: join the two busy fetches (fail-fast); on
success commit the tagged busy blocks, then, in details mode, join the two
detail fetches and commit the sorted events; any failure lands in the `catch`
block, which records the error message and leaves `busy` (and `events`)
untouched for that cycle. -/
def refresh (st : AppState) (msBusy gBusy : Except String (List Interval))
    (detailsMode : Bool) (msDet gDet : Except String (List EventItem)) :
    AppState :=
  match promiseAll2 msBusy gBusy with
  | .error e => { st with err := some e, loading := false }
  | .ok (ms, g) =>
    let busyBlocks : List BusyBlock :=
      ms.map (fun b => ⟨b.start, b.stop, Source.microsoft⟩)
        ++ g.map (fun b => ⟨b.start, b.stop, Source.google⟩)
    if detailsMode then
      match promiseAll2 msDet gDet with
      | .error e =>
        { st with busy := busyBlocks, err := some e, loading := false }
      | .ok (m, g2) =>
        { busy := busyBlocks, events := sortEventsByStart (m ++ g2)
          err := none, loading := false }
    else
      { busy := busyBlocks, events := [], err := none, loading := false }

theorem leStart_def (a b : Interval) : Interval.leStart a b ↔ a.start ≤ b.start :=
  Iff.rfl

theorem covers_nil (t : ℤ) : ¬ covers [] t := by
  rintro ⟨i, hi, -⟩
  exact (List.not_mem_nil i) hi

theorem covers_cons {x : Interval} {xs : List Interval} {t : ℤ} :
    covers (x :: xs) t ↔ memI t x ∨ covers xs t := by
  unfold covers
  constructor
  · rintro ⟨i, hi, hm⟩
    rcases List.mem_cons.mp hi with rfl | hi
    · exact Or.inl hm
    · exact Or.inr ⟨i, hi, hm⟩
  · rintro (hm | ⟨i, hi, hm⟩)
    · exact ⟨x, List.mem_cons_self _ _, hm⟩
    · exact ⟨i, List.mem_cons_of_mem _ hi, hm⟩

theorem covers_perm {l1 l2 : List Interval} (h : List.Perm l1 l2) (t : ℤ) :
    covers l1 t ↔ covers l2 t := by
  unfold covers
  constructor
  · rintro ⟨i, hi, hm⟩
    exact ⟨i, h.mem_iff.mp hi, hm⟩
  · rintro ⟨i, hi, hm⟩
    exact ⟨i, h.mem_iff.mpr hi, hm⟩

theorem sortByStart_perm (l : List Interval) : List.Perm (sortByStart l) l :=
  List.perm_insertionSort _ l

theorem sortByStart_sorted (l : List Interval) :
    List.Pairwise Interval.leStart (sortByStart l) :=
  List.sorted_insertionSort _ l

theorem mergeGo_start_le :
    ∀ (rest : List Interval) (cur : Interval),
      List.Pairwise Interval.leStart (cur :: rest) →
      ∀ z ∈ mergeGo cur rest, cur.start ≤ z.start := by
  intro rest
  induction rest with
  | nil =>
    intro cur _ z hz
    simp only [mergeGo, List.mem_singleton] at hz
    subst hz
    exact le_refl _
  | cons y ys ih =>
    intro cur hp z hz
    rw [List.pairwise_cons] at hp
    by_cases hle : y.start ≤ cur.stop
    · rw [mergeGo, if_pos hle] at hz
      have hp2 : List.Pairwise Interval.leStart
          ((⟨cur.start, max cur.stop y.stop⟩ : Interval) :: ys) := by
        rw [List.pairwise_cons]
        exact ⟨fun a ha => hp.1 a (List.mem_cons_of_mem _ ha),
          (List.pairwise_cons.mp hp.2).2⟩
      exact ih _ hp2 z hz
    · rw [mergeGo, if_neg hle] at hz
      rcases List.mem_cons.mp hz with rfl | hz2
      · exact le_refl _
      · exact le_trans ((leStart_def _ _).mp (hp.1 y (List.mem_cons_self _ _)))
          (ih y hp.2 z hz2)

theorem mergeGo_pairwise_gap :
    ∀ (rest : List Interval) (cur : Interval),
      List.Pairwise Interval.leStart (cur :: rest) →
      List.Pairwise (fun a b : Interval => a.stop < b.start) (mergeGo cur rest) := by
  intro rest
  induction rest with
  | nil =>
    intro cur _
    simp [mergeGo]
  | cons y ys ih =>
    intro cur hp
    rw [List.pairwise_cons] at hp
    by_cases hle : y.start ≤ cur.stop
    · rw [mergeGo, if_pos hle]
      have hp2 : List.Pairwise Interval.leStart
          ((⟨cur.start, max cur.stop y.stop⟩ : Interval) :: ys) := by
        rw [List.pairwise_cons]
        exact ⟨fun a ha => hp.1 a (List.mem_cons_of_mem _ ha),
          (List.pairwise_cons.mp hp.2).2⟩
      exact ih _ hp2
    · rw [mergeGo, if_neg hle, List.pairwise_cons]
      refine ⟨fun z hz => ?_, ih y hp.2⟩
      have h1 : y.start ≤ z.start := mergeGo_start_le ys y hp.2 z hz
      have h2 : cur.stop < y.start := lt_of_not_le hle
      exact lt_of_lt_of_le h2 h1

theorem mergeGo_pairwise_leStart :
    ∀ (rest : List Interval) (cur : Interval),
      List.Pairwise Interval.leStart (cur :: rest) →
      List.Pairwise Interval.leStart (mergeGo cur rest) := by
  intro rest
  induction rest with
  | nil =>
    intro cur _
    simp [mergeGo]
  | cons y ys ih =>
    intro cur hp
    rw [List.pairwise_cons] at hp
    by_cases hle : y.start ≤ cur.stop
    · rw [mergeGo, if_pos hle]
      have hp2 : List.Pairwise Interval.leStart
          ((⟨cur.start, max cur.stop y.stop⟩ : Interval) :: ys) := by
        rw [List.pairwise_cons]
        exact ⟨fun a ha => hp.1 a (List.mem_cons_of_mem _ ha),
          (List.pairwise_cons.mp hp.2).2⟩
      exact ih _ hp2
    · rw [mergeGo, if_neg hle, List.pairwise_cons]
      refine ⟨fun z hz => ?_, ih y hp.2⟩
      have h1 : y.start ≤ z.start := mergeGo_start_le ys y hp.2 z hz
      exact le_trans ((leStart_def _ _).mp (hp.1 y (List.mem_cons_self _ _))) h1

theorem mergeGo_covers :
    ∀ (rest : List Interval) (cur : Interval),
      List.Pairwise Interval.leStart (cur :: rest) →
      ∀ t : ℤ, covers (mergeGo cur rest) t ↔ memI t cur ∨ covers rest t := by
  intro rest
  induction rest with
  | nil =>
    intro cur _ t
    rw [mergeGo, covers_cons]
  | cons y ys ih =>
    intro cur hp t
    rw [List.pairwise_cons] at hp
    by_cases hle : y.start ≤ cur.stop
    · rw [mergeGo, if_pos hle]
      have hp2 : List.Pairwise Interval.leStart
          ((⟨cur.start, max cur.stop y.stop⟩ : Interval) :: ys) := by
        rw [List.pairwise_cons]
        exact ⟨fun a ha => hp.1 a (List.mem_cons_of_mem _ ha),
          (List.pairwise_cons.mp hp.2).2⟩
      rw [ih _ hp2 t, covers_cons]
      have hsy : cur.start ≤ y.start :=
        (leStart_def _ _).mp (hp.1 y (List.mem_cons_self _ _))
      have hmerge : memI t (⟨cur.start, max cur.stop y.stop⟩ : Interval) ↔
          memI t cur ∨ memI t y := by
        simp only [memI]
        rcases le_total cur.stop y.stop with hm | hm
        · rw [max_eq_right hm]; omega
        · rw [max_eq_left hm]; omega
      rw [hmerge]
      tauto
    · rw [mergeGo, if_neg hle, covers_cons, ih y hp.2 t, covers_cons]

theorem mergeGo_bounds (lo hi : ℤ) :
    ∀ (rest : List Interval) (cur : Interval),
      (lo ≤ cur.start ∧ cur.stop ≤ hi ∧ cur.start < cur.stop) →
      (∀ y ∈ rest, lo ≤ y.start ∧ y.stop ≤ hi ∧ y.start < y.stop) →
      ∀ z ∈ mergeGo cur rest, lo ≤ z.start ∧ z.stop ≤ hi ∧ z.start < z.stop := by
  intro rest
  induction rest with
  | nil =>
    intro cur hcur _ z hz
    simp only [mergeGo, List.mem_singleton] at hz
    subst hz
    exact hcur
  | cons y ys ih =>
    intro cur hcur hrest z hz
    have hy := hrest y (List.mem_cons_self _ _)
    by_cases hle : y.start ≤ cur.stop
    · rw [mergeGo, if_pos hle] at hz
      refine ih ⟨cur.start, max cur.stop y.stop⟩ ⟨hcur.1, ?_, ?_⟩
        (fun a ha => hrest a (List.mem_cons_of_mem _ ha)) z hz
      · exact max_le hcur.2.1 hy.2.1
      · exact lt_of_lt_of_le hcur.2.2 (le_max_left _ _)
    · rw [mergeGo, if_neg hle] at hz
      rcases List.mem_cons.mp hz with rfl | hz2
      · exact hcur
      · exact ih y hy (fun a ha => hrest a (List.mem_cons_of_mem _ ha)) z hz2

theorem mergeIntervals_pairwise_gap (l : List Interval) :
    List.Pairwise (fun a b : Interval => a.stop < b.start) (mergeIntervals l) := by
  unfold mergeIntervals
  rcases h : sortByStart l with _ | ⟨x, xs⟩
  · exact List.Pairwise.nil
  · exact mergeGo_pairwise_gap xs x (h ▸ sortByStart_sorted l)

theorem mergeIntervals_pairwise_leStart (l : List Interval) :
    List.Pairwise Interval.leStart (mergeIntervals l) := by
  unfold mergeIntervals
  rcases h : sortByStart l with _ | ⟨x, xs⟩
  · exact List.Pairwise.nil
  · exact mergeGo_pairwise_leStart xs x (h ▸ sortByStart_sorted l)

theorem mergeIntervals_covers (l : List Interval) (t : ℤ) :
    covers (mergeIntervals l) t ↔ covers l t := by
  unfold mergeIntervals
  rcases h : sortByStart l with _ | ⟨x, xs⟩
  · have : l = [] := ((h ▸ sortByStart_perm l).symm).eq_nil
    subst this
    exact Iff.rfl
  · rw [mergeGo_covers xs x (h ▸ sortByStart_sorted l) t, ← covers_cons]
    exact covers_perm (h ▸ sortByStart_perm l) t

theorem mergeIntervals_bounds (lo hi : ℤ) (l : List Interval)
    (hl : ∀ i ∈ l, lo ≤ i.start ∧ i.stop ≤ hi ∧ i.start < i.stop) :
    ∀ z ∈ mergeIntervals l, lo ≤ z.start ∧ z.stop ≤ hi ∧ z.start < z.stop := by
  unfold mergeIntervals
  rcases h : sortByStart l with _ | ⟨x, xs⟩
  · intro z hz
    exact absurd hz (List.not_mem_nil z)
  · have hmem : ∀ i ∈ x :: xs, lo ≤ i.start ∧ i.stop ≤ hi ∧ i.start < i.stop := by
      intro i hi
      exact hl i ((h ▸ sortByStart_perm l).mem_iff.mp hi)
    exact mergeGo_bounds lo hi xs x (hmem x (List.mem_cons_self _ _))
      (fun a ha => hmem a (List.mem_cons_of_mem _ ha))

theorem mergeGo_of_gap :
    ∀ (xs : List Interval) (x : Interval),
      List.Pairwise (fun a b : Interval => a.stop < b.start) (x :: xs) →
      mergeGo x xs = x :: xs := by
  intro xs
  induction xs with
  | nil => intro x _; rfl
  | cons y ys ih =>
    intro x hp
    rw [List.pairwise_cons] at hp
    have hxy : x.stop < y.start := hp.1 y (List.mem_cons_self _ _)
    rw [mergeGo, if_neg (not_le.mpr hxy), ih y hp.2]

/-- C3: `mergeIntervals` returns a sorted (by start), pairwise non-overlapping
and minimal list — consecutive outputs are separated by a strictly positive
gap, so touching inputs collapse — whose covered set of time points equals
that of the input; the empty input yields the empty output. -/
theorem mergeIntervals_correct :
    mergeIntervals [] = [] ∧
    ∀ l : List Interval,
      List.Pairwise Interval.leStart (mergeIntervals l) ∧
      List.Pairwise (fun a b : Interval => a.stop < b.start) (mergeIntervals l) ∧
      ∀ t : ℤ, covers (mergeIntervals l) t ↔ covers l t :=
  ⟨rfl, fun l => ⟨mergeIntervals_pairwise_leStart l, mergeIntervals_pairwise_gap l,
    mergeIntervals_covers l⟩⟩

theorem mergeIntervals_of_sorted_gap (m : List Interval)
    (hs : List.Pairwise Interval.leStart m)
    (hg : List.Pairwise (fun a b : Interval => a.stop < b.start) m) :
    mergeIntervals m = m := by
  unfold mergeIntervals
  rw [show sortByStart m = m from List.Sorted.insertionSort_eq hs]
  rcases m with _ | ⟨x, xs⟩
  · rfl
  · exact mergeGo_of_gap xs x hg

/-- C8: `mergeIntervals` is idempotent — merging its own output returns the
same list. -/
theorem mergeIntervals_idempotent (l : List Interval) :
    mergeIntervals (mergeIntervals l) = mergeIntervals l :=
  mergeIntervals_of_sorted_gap _ (mergeIntervals_pairwise_leStart l)
    (mergeIntervals_pairwise_gap l)

theorem countCov_nil (t : ℤ) : countCov [] t = 0 := rfl

theorem countCov_cons (x : Interval) (xs : List Interval) (t : ℤ) :
    countCov (x :: xs) t = countCov xs t + (if memI t x then 1 else 0) := by
  unfold countCov
  rw [List.countP_cons]
  congr 1
  by_cases h : memI t x <;> simp [h]

theorem countCov_append (l1 l2 : List Interval) (t : ℤ) :
    countCov (l1 ++ l2) t = countCov l1 t + countCov l2 t :=
  List.countP_append _ _ _

theorem countCov_singleton (a b t : ℤ) :
    countCov [⟨a, b⟩] t = if a ≤ t ∧ t < b then 1 else 0 := by
  rw [countCov_cons, countCov_nil]
  simp [memI]

theorem invertScan_spec :
    ∀ (merged : List Interval) (cursor : ℤ),
      List.Pairwise (fun a b : Interval => a.stop < b.start) merged →
      (∀ b ∈ merged, b.start < b.stop) →
      (∀ b ∈ merged, cursor ≤ b.start) →
      cursor ≤ (invertScan cursor merged).2 ∧
      ((invertScan cursor merged).2 = cursor ∨
        ∃ b ∈ merged, (invertScan cursor merged).2 = b.stop) ∧
      (∀ i ∈ (invertScan cursor merged).1,
        cursor ≤ i.start ∧ i.stop ≤ (invertScan cursor merged).2 ∧ i.start < i.stop) ∧
      (∀ t : ℤ, countCov (invertScan cursor merged).1 t + countCov merged t
        = if cursor ≤ t ∧ t < (invertScan cursor merged).2 then 1 else 0) := by
  intro merged
  induction merged with
  | nil =>
    intro cursor _ _ _
    refine ⟨le_refl _, Or.inl rfl, ?_, ?_⟩
    · intro i hi
      exact absurd hi (List.not_mem_nil i)
    · intro t
      simp only [invertScan, countCov_nil]
      have hcc : ¬ (cursor ≤ t ∧ t < cursor) := by omega
      rw [if_neg hcc]
  | cons b bs ih =>
    intro cursor hp hne hcur
    have hcb0 : cursor ≤ b.start := hcur b (List.mem_cons_self _ _)
    have hbb : b.start < b.stop := hne b (List.mem_cons_self _ _)
    have hcb : cursor < b.stop := lt_of_le_of_lt hcb0 hbb
    have hpc := List.pairwise_cons.mp hp
    have hunfold : invertScan cursor (b :: bs)
        = ((if cursor < b.start then [⟨cursor, b.start⟩] else [])
            ++ (invertScan b.stop bs).1, (invertScan b.stop bs).2) := by
      simp only [invertScan]
      rw [if_pos hcb]
    obtain ⟨ih1, ih2, ih3, ih4⟩ := ih b.stop hpc.2
      (fun y hy => hne y (List.mem_cons_of_mem _ hy))
      (fun y hy => le_of_lt (hpc.1 y hy))
    rw [hunfold]
    refine ⟨le_trans (le_of_lt hcb) ih1, ?_, ?_, ?_⟩
    · rcases ih2 with heq | ⟨y, hy, heq⟩
      · exact Or.inr ⟨b, List.mem_cons_self _ _, heq⟩
      · exact Or.inr ⟨y, List.mem_cons_of_mem _ hy, heq⟩
    · intro i hi
      rcases List.mem_append.mp hi with hpre | hrest
      · by_cases hlt : cursor < b.start
        · rw [if_pos hlt, List.mem_singleton] at hpre
          subst hpre
          exact ⟨le_refl _, le_trans (le_of_lt (lt_of_lt_of_le hbb ih1)) (le_refl _), hlt⟩
        · rw [if_neg hlt] at hpre
          exact absurd hpre (List.not_mem_nil i)
      · obtain ⟨hi1, hi2, hi3⟩ := ih3 i hrest
        exact ⟨le_trans (le_of_lt hcb) hi1, hi2, hi3⟩
    · intro t
      have hIHt := ih4 t
      rw [countCov_append, countCov_cons]
      have hpre : countCov (if cursor < b.start then [(⟨cursor, b.start⟩ : Interval)] else []) t
          = if cursor ≤ t ∧ t < b.start then 1 else 0 := by
        by_cases hlt : cursor < b.start
        · rw [if_pos hlt, countCov_singleton]
        · rw [if_neg hlt, countCov_nil]
          have hcc : ¬ (cursor ≤ t ∧ t < b.start) := by omega
          rw [if_neg hcc]
      rw [hpre]
      simp only [memI]
      have hbfin : b.stop ≤ (invertScan b.stop bs).2 := ih1
      split_ifs at hIHt ⊢ <;> omega

theorem clampToWorkday_bounds (intervals : List Interval) (day ws we : ℤ) :
    ∀ i ∈ clampToWorkday intervals day ws we,
      day + ws * msPerHour ≤ i.start ∧ i.stop ≤ day + we * msPerHour ∧ i.start < i.stop := by
  intro i hi
  unfold clampToWorkday at hi
  simp only [List.mem_filter, List.mem_map, decide_eq_true_eq] at hi
  obtain ⟨⟨j, _, rfl⟩, hlt⟩ := hi
  exact ⟨le_max_right _ _, min_le_right _ _, hlt⟩

theorem invertCore_spec (busy : List Interval) (day ws we : ℤ) (h : ws < we) :
    (∀ i ∈ invertCore busy day ws we, 0 < i.stop - i.start) ∧
    (∀ t : ℤ,
      countCov (invertCore busy day ws we) t
        + countCov (mergeIntervals (clampToWorkday busy day ws we)) t
      = if day + ws * msPerHour ≤ t ∧ t < day + we * msPerHour then 1 else 0) := by
  have hSE : day + ws * msPerHour < day + we * msPerHour := by
    simp only [msPerHour]
    omega
  have hbounds := mergeIntervals_bounds (day + ws * msPerHour) (day + we * msPerHour)
    (clampToWorkday busy day ws we) (clampToWorkday_bounds busy day ws we)
  have hgap := mergeIntervals_pairwise_gap (clampToWorkday busy day ws we)
  obtain ⟨hfin1, hfin2, hels, hcount⟩ :=
    invertScan_spec (mergeIntervals (clampToWorkday busy day ws we))
      (day + ws * msPerHour) hgap
      (fun b hb => (hbounds b hb).2.2) (fun b hb => (hbounds b hb).1)
  have hfinE : (invertScan (day + ws * msPerHour)
      (mergeIntervals (clampToWorkday busy day ws we))).2 ≤ day + we * msPerHour := by
    rcases hfin2 with heq | ⟨b, hb, heq⟩
    · rw [heq]; exact le_of_lt hSE
    · rw [heq]; exact (hbounds b hb).2.1
  have hunfold : invertCore busy day ws we
      = (invertScan (day + ws * msPerHour)
          (mergeIntervals (clampToWorkday busy day ws we))).1
        ++ (if (invertScan (day + ws * msPerHour)
              (mergeIntervals (clampToWorkday busy day ws we))).2 < day + we * msPerHour
            then [⟨(invertScan (day + ws * msPerHour)
              (mergeIntervals (clampToWorkday busy day ws we))).2, day + we * msPerHour⟩]
            else []) := by
    unfold invertCore
    rfl
  constructor
  · intro i hi
    rw [hunfold] at hi
    rcases List.mem_append.mp hi with hl | hr
    · have := (hels i hl).2.2
      omega
    · by_cases hfE : (invertScan (day + ws * msPerHour)
          (mergeIntervals (clampToWorkday busy day ws we))).2 < day + we * msPerHour
      · rw [if_pos hfE, List.mem_singleton] at hr
        subst hr
        simp only
        omega
      · rw [if_neg hfE] at hr
        exact absurd hr (List.not_mem_nil i)
  · intro t
    rw [hunfold, countCov_append]
    have htail : countCov (if (invertScan (day + ws * msPerHour)
          (mergeIntervals (clampToWorkday busy day ws we))).2 < day + we * msPerHour
        then [⟨(invertScan (day + ws * msPerHour)
          (mergeIntervals (clampToWorkday busy day ws we))).2, day + we * msPerHour⟩]
        else []) t
        = if (invertScan (day + ws * msPerHour)
              (mergeIntervals (clampToWorkday busy day ws we))).2 ≤ t
            ∧ t < day + we * msPerHour then 1 else 0 := by
      by_cases hfE : (invertScan (day + ws * msPerHour)
          (mergeIntervals (clampToWorkday busy day ws we))).2 < day + we * msPerHour
      · rw [if_pos hfE, countCov_singleton]
      · rw [if_neg hfE, countCov_nil]
        have hcc : ¬ ((invertScan (day + ws * msPerHour)
            (mergeIntervals (clampToWorkday busy day ws we))).2 ≤ t
            ∧ t < day + we * msPerHour) := by omega
        rw [if_neg hcc]
    have hmain := hcount t
    rw [htail]
    split_ifs at hmain ⊢ <;> omega

theorem countCov_filter_split (p q : Interval → Bool) (hpq : ∀ i, q i = !p i) :
    ∀ (l : List Interval) (t : ℤ),
      countCov (l.filter p) t + countCov (l.filter q) t = countCov l t := by
  intro l t
  induction l with
  | nil => rfl
  | cons x xs ih =>
    rw [List.filter_cons, List.filter_cons, hpq x]
    cases hx : p x
    · simp only [Bool.not_false, if_true, Bool.false_eq_true, if_false]
      rw [countCov_cons, countCov_cons x xs]
      omega
    · simp only [Bool.not_true, if_true, Bool.false_eq_true, if_false]
      rw [countCov_cons, countCov_cons x xs]
      omega

/-- C2: for `workStart < workEnd`, the free slots returned by
`invertBusyToFree` together with `mergeIntervals(clampToWorkday(busy))` cover
every point of the workday exactly once, except that the points of gaps
shorter than `minMinutes` (dropped by the final filter) are exactly the
uncovered ones; and every returned slot lasts at least `minMinutes`. -/
theorem invertBusyToFree_partition (busy : List Interval) (day ws we minM : ℤ)
    (h : ws < we) :
    (∀ t : ℤ, day + ws * msPerHour ≤ t → t < day + we * msPerHour →
      countCov (invertBusyToFree busy day ws we minM) t
        + countCov (mergeIntervals (clampToWorkday busy day ws we)) t
        + countCov ((invertCore busy day ws we).filter
            fun i => decide (i.stop - i.start < minM * msPerMin)) t = 1) ∧
    ∀ i ∈ invertBusyToFree busy day ws we minM,
      minM * msPerMin ≤ i.stop - i.start := by
  obtain ⟨_, hcount⟩ := invertCore_spec busy day ws we h
  constructor
  · intro t ht1 ht2
    have hsplit := countCov_filter_split
      (fun i => decide (minM * msPerMin ≤ i.stop - i.start))
      (fun i => decide (i.stop - i.start < minM * msPerMin))
      (fun i => by
        by_cases hc : minM * msPerMin ≤ i.stop - i.start <;> simp [hc]
        omega)
      (invertCore busy day ws we) t
    have hcore := hcount t
    rw [if_pos ⟨ht1, ht2⟩] at hcore
    unfold invertBusyToFree
    omega
  · intro i hi
    unfold invertBusyToFree at hi
    simp only [List.mem_filter, decide_eq_true_eq] at hi
    exact hi.2

/-- Witness for C2 at a concrete workday: one busy hour 09:00–10:00 on a
day starting at epoch 0, work hours 8–17, 30-minute minimum. -/
theorem invertBusyToFree_partition_witness :
    (8 : ℤ) < 17 ∧
    ((∀ t : ℤ, (0 : ℤ) + 8 * msPerHour ≤ t → t < (0 : ℤ) + 17 * msPerHour →
      countCov (invertBusyToFree [⟨32400000, 36000000⟩] 0 8 17 30) t
        + countCov (mergeIntervals (clampToWorkday [⟨32400000, 36000000⟩] 0 8 17)) t
        + countCov ((invertCore [⟨32400000, 36000000⟩] 0 8 17).filter
            fun i => decide (i.stop - i.start < 30 * msPerMin)) t = 1) ∧
    ∀ i ∈ invertBusyToFree [⟨32400000, 36000000⟩] 0 8 17 30,
      (30 : ℤ) * msPerMin ≤ i.stop - i.start) :=
  ⟨by norm_num, invertBusyToFree_partition [⟨32400000, 36000000⟩] 0 8 17 30 (by norm_num)⟩

/-- C10: a zero-length or inverted workday (`workEnd ≤ workStart`, e.g. the
weekend entry `{start: 0, end: 0}` of `DEFAULT_WORK_HOURS_TEMPLATE`) yields
no free slots at all. -/
theorem invertBusyToFree_empty_workday (busy : List Interval)
    (day ws we minM : ℤ) (h : we ≤ ws) :
    invertBusyToFree busy day ws we minM = [] := by
  have hclamp : clampToWorkday busy day ws we = [] := by
    unfold clampToWorkday
    rw [List.filter_eq_nil_iff]
    intro i hi
    simp only [List.mem_map] at hi
    obtain ⟨j, _, rfl⟩ := hi
    simp only [decide_eq_true_eq, not_lt]
    have hES : day + we * msPerHour ≤ day + ws * msPerHour := by
      simp only [msPerHour]
      omega
    exact le_trans (le_trans (min_le_right _ _) hES) (le_max_right _ _)
  unfold invertBusyToFree invertCore
  rw [hclamp]
  dsimp only
  have hscan : invertScan (day + ws * msPerHour) (mergeIntervals []) =
      ([], day + ws * msPerHour) := rfl
  rw [hscan]
  have hE : ¬ (day + ws * msPerHour < day + we * msPerHour) := by
    simp only [msPerHour]
    omega
  rw [if_neg hE]
  rfl

/-- Witness for C10: the default weekend work hours `{start: 0, end: 0}`. -/
theorem invertBusyToFree_empty_workday_witness :
    (0 : ℤ) ≤ 0 ∧ invertBusyToFree [⟨3600000, 7200000⟩] 0 0 0 30 = [] :=
  ⟨le_refl 0, invertBusyToFree_empty_workday [⟨3600000, 7200000⟩] 0 0 0 30 (le_refl 0)⟩

/-- C6: when `Retry-After` parses to `sec` seconds the wait is
`(sec + r) * 1000` ms, which lies in `[sec, sec + 1)` seconds; when the
header is absent or does not parse, the wait is
`min(baseMs * (1 + 2r), capMs)` ms, which lies in `[baseMs, capMs]`. -/
theorem backoff_bounds (r baseMs capMs : ℚ) (h0 : 0 ≤ r) (h1 : r < 1)
    (hb : 0 ≤ baseMs) (hbc : baseMs ≤ capMs) :
    (∀ sec : ℚ,
      backoffWaitMs (some (some sec)) r baseMs capMs = (sec + r) * 1000 ∧
      sec * 1000 ≤ backoffWaitMs (some (some sec)) r baseMs capMs ∧
      backoffWaitMs (some (some sec)) r baseMs capMs < (sec + 1) * 1000) ∧
    (∀ ra : Option (Option ℚ), ra = none ∨ ra = some none →
      backoffWaitMs ra r baseMs capMs = min (baseMs * (1 + r * 2)) capMs ∧
      baseMs ≤ backoffWaitMs ra r baseMs capMs ∧
      backoffWaitMs ra r baseMs capMs ≤ capMs) := by
  constructor
  · intro sec
    refine ⟨rfl, ?_, ?_⟩
    · show sec * 1000 ≤ (sec + r) * 1000
      nlinarith
    · show (sec + r) * 1000 < (sec + 1) * 1000
      nlinarith
  · intro ra hra
    have hmin1 : baseMs ≤ min (baseMs * (1 + r * 2)) capMs := by
      refine le_min ?_ hbc
      nlinarith
    have hmin2 : min (baseMs * (1 + r * 2)) capMs ≤ capMs := min_le_right _ _
    rcases hra with rfl | rfl
    · exact ⟨rfl, hmin1, hmin2⟩
    · exact ⟨rfl, hmin1, hmin2⟩

/-- Witness for C6 at `r = 1/2` and the default `baseMs = 1000`,
`capMs = 8000`; the `Retry-After: 2` case of the spec follows at `sec = 2`. -/
theorem backoff_bounds_witness :
    (0 : ℚ) ≤ 1/2 ∧ (1 : ℚ)/2 < 1 ∧ (0 : ℚ) ≤ 1000 ∧ (1000 : ℚ) ≤ 8000 ∧
    ((∀ sec : ℚ,
      backoffWaitMs (some (some sec)) (1/2) 1000 8000 = (sec + 1/2) * 1000 ∧
      sec * 1000 ≤ backoffWaitMs (some (some sec)) (1/2) 1000 8000 ∧
      backoffWaitMs (some (some sec)) (1/2) 1000 8000 < (sec + 1) * 1000) ∧
    (∀ ra : Option (Option ℚ), ra = none ∨ ra = some none →
      backoffWaitMs ra (1/2) 1000 8000 = min ((1000 : ℚ) * (1 + (1/2) * 2)) 8000 ∧
      (1000 : ℚ) ≤ backoffWaitMs ra (1/2) 1000 8000 ∧
      backoffWaitMs ra (1/2) 1000 8000 ≤ 8000)) :=
  ⟨by norm_num, by norm_num, by norm_num, by norm_num,
    backoff_bounds (1/2) 1000 8000 (by norm_num) (by norm_num) (by norm_num)
      (by norm_num)⟩

/-- C5: a Graph calendar-view entry contributes a busy interval exactly when
its `showAs`, lower-cased, is not `"free"` (so `busy`, `tentative`, `oof`,
`workingElsewhere`, `unknown` and a missing status all count) and its end is
strictly after its start; `fetchGoogleFreeBusy` keeps exactly the busy ranges
whose end is strictly after their start. -/
theorem busy_classification :
    (∀ es : List GraphViewEntry,
      graphEntriesBusy es =
        (es.filter fun e =>
            decide ((e.showAs.getD "").toLower ≠ "free" ∧ e.startMs < e.endMs)).map
          fun e => ⟨e.startMs, e.endMs⟩) ∧
    (∀ rs : List (ℤ × ℤ),
      googleBusyOf rs =
        (rs.filter fun b => decide (b.1 < b.2)).map fun b => ⟨b.1, b.2⟩) := by
  constructor
  · intro es
    induction es with
    | nil => rfl
    | cons e es ih =>
      rw [graphEntriesBusy, List.filter_cons]
      by_cases hfree : (e.showAs.getD "").toLower ≠ "free"
      · rw [if_pos hfree]
        by_cases hlt : e.startMs < e.endMs
        · rw [if_pos hlt]
          have : decide ((e.showAs.getD "").toLower ≠ "free" ∧ e.startMs < e.endMs)
              = true := by simp [hfree, hlt]
          rw [this, if_pos rfl, List.map_cons, ih]
          rfl
        · rw [if_neg hlt]
          have : decide ((e.showAs.getD "").toLower ≠ "free" ∧ e.startMs < e.endMs)
              = false := by simp [hlt]
          rw [this, ih]
          simp
      · rw [if_neg hfree]
        have : decide ((e.showAs.getD "").toLower ≠ "free" ∧ e.startMs < e.endMs)
            = false := by simp [hfree]
        rw [this, ih]
        simp
  · intro rs
    induction rs with
    | nil => rfl
    | cons b bs ih =>
      unfold googleBusyOf at ih ⊢
      rw [List.map_cons, List.filter_cons, List.filter_cons]
      by_cases hlt : b.1 < b.2 <;> simp [hlt, ih]

/-- C7: with no usable token (`getMsToken()` returning null for Microsoft, a
null in-memory token for Google), each busy fetch and each details fetch
returns the empty list, performing zero network requests and raising no
error. -/
theorem no_token_no_request :
    (∀ pages : List GraphPage,
      fetchGraphFreeBusy none pages = (0, Except.ok [])) ∧
    (∀ pages : List GooglePage,
      fetchGoogleFreeBusy none pages = (0, Except.ok [])) ∧
    (∀ pages : List GraphDetailPage,
      fetchGraphDetails none pages = (0, Except.ok [])) ∧
    (∀ pages : List GoogleDetailPage,
      fetchGoogleDetails none pages = (0, Except.ok [])) :=
  ⟨fun _ => rfl, fun _ => rfl, fun _ => rfl, fun _ => rfl⟩

/-- C1 fails on the code: for a provider record marked private, both details
fetchers do replace the title with the placeholder `"(Privat)"`, but they
copy the raw payload's location into the returned record unchanged — the
location is not absent.  Evaluated at a private Graph entry with
`location.displayName = "Rom 101"` and a private Google entry with
`location = "Storgata 1"`. -/
theorem fetchDetails_private_location_leak :
    (fetchGraphDetails (some "tok")
        [⟨200, [⟨some "private", some "Legetime", some "Rom 101", 0, 3600000⟩], false⟩]).2
      = Except.ok [⟨Source.microsoft, 0, 3600000, "(Privat)", some "Rom 101", true⟩] ∧
    (fetchGoogleDetails (some "tok")
        [⟨200, [⟨some "private", some "Tannlege", some "Storgata 1", 0, 3600000⟩], false⟩]).2
      = Except.ok [⟨Source.google, 0, 3600000, "(Privat)", some "Storgata 1", true⟩] ∧
    (some "Rom 101" : Option String) ≠ none ∧
    (some "Storgata 1" : Option String) ≠ none := by
  refine ⟨rfl, rfl, ?_, ?_⟩ <;> simp

/-- C9 fails on the code: `mergeIntervals` mutates the caller's interval
objects.  On the input `[{0,10}, {5,20}]` the overlap branch executes
`prev.end = new Date(20)` on the first input object, so after the call the
caller's array reads `[{0,20}, {5,20}]`, not its original value (the
returned merged list `[{0,20}]` itself agrees with the pure rendering). -/
theorem mergeIntervals_mutates_input :
    (mergeIntervalsAlias [⟨0, 10⟩, ⟨5, 20⟩]).2 ≠ [⟨0, 10⟩, ⟨5, 20⟩] ∧
    (mergeIntervalsAlias [⟨0, 10⟩, ⟨5, 20⟩]).2 = [⟨0, 20⟩, ⟨5, 20⟩] ∧
    (mergeIntervalsAlias [⟨0, 10⟩, ⟨5, 20⟩]).1 = [⟨0, 20⟩] ∧
    mergeIntervals [⟨0, 10⟩, ⟨5, 20⟩] = [⟨0, 20⟩] := by
  refine ⟨?_, rfl, rfl, rfl⟩
  decide

theorem graphBusyLoop_error_shape :
    ∀ (ps : List GraphPage) (e : String), (graphBusyLoop ps).2 = Except.error e →
      ∃ s : ℕ, ¬ (200 ≤ s ∧ s < 300) ∧ s ≠ 429 ∧ s ≠ 503 ∧
        e = "Graph calendarView: " ++ toString s := by
  intro ps
  induction ps with
  | nil =>
    intro e he
    exact absurd he (by simp [graphBusyLoop])
  | cons p ps ih =>
    intro e he
    rw [graphBusyLoop] at he
    by_cases h1 : p.status = 429 ∨ p.status = 503
    · rw [if_pos h1] at he
      exact ih e he
    · rw [if_neg h1] at he
      by_cases h2 : httpOk p.status
      · rw [if_neg (not_not_intro h2)] at he
        dsimp only at he
        by_cases h3 : p.nextLink
        · rw [if_pos h3] at he
          dsimp only at he
          rcases hr : (graphBusyLoop ps).2 with e2 | bs
          · rw [hr] at he
            simp only [Except.error.injEq] at he
            subst he
            exact ih e2 hr
          · rw [hr] at he
            simp at he
        · rw [if_neg h3] at he
          simp at he
      · rw [if_pos h2] at he
        simp only [Except.error.injEq] at he
        subst he
        push_neg at h1
        refine ⟨p.status, ?_, h1.1, h1.2, rfl⟩
        simpa [httpOk] using h2

theorem googleBusyLoop_error_shape :
    ∀ (ps : List GooglePage) (e : String), (googleBusyLoop ps).2 = Except.error e →
      ∃ s : ℕ, ¬ (200 ≤ s ∧ s < 300) ∧ s ≠ 429 ∧ s ≠ 503 ∧
        ∃ suffix : String, e = "Google freeBusy: " ++ toString s ++ suffix := by
  intro ps
  induction ps with
  | nil =>
    intro e he
    exact absurd he (by simp [googleBusyLoop])
  | cons p ps ih =>
    intro e he
    rw [googleBusyLoop] at he
    by_cases h1 : p.status = 429 ∨ p.status = 503
    · rw [if_pos h1] at he
      exact ih e he
    · rw [if_neg h1] at he
      by_cases h2 : httpOk p.status
      · rw [if_neg (not_not_intro h2)] at he
        simp at he
      · rw [if_pos h2] at he
        simp only [Except.error.injEq] at he
        subst he
        push_neg at h1
        refine ⟨p.status, ?_, h1.1, h1.2,
          (match p.errMsg with
           | some m => " – " ++ m
           | none => ""), rfl⟩
        simpa [httpOk] using h2

/-- C4: if either provider's busy fetch inside `refresh` fails with a
non-2xx status other than 429/503, the refreshed state keeps the previous
`busy` (and `events`) unchanged — no partial-success commit — and carries a
single error message that names the offending provider and the HTTP
status. -/
theorem refresh_fetch_failure (st : AppState) (gTok goTok : Option String)
    (gPages : List GraphPage) (goPages : List GooglePage) (dm : Bool)
    (msDet gDet : Except String (List EventItem))
    (hfail : (∃ e, (fetchGraphFreeBusy gTok gPages).2 = Except.error e) ∨
             (∃ e, (fetchGoogleFreeBusy goTok goPages).2 = Except.error e)) :
    (refresh st (fetchGraphFreeBusy gTok gPages).2
        (fetchGoogleFreeBusy goTok goPages).2 dm msDet gDet).busy = st.busy ∧
    (refresh st (fetchGraphFreeBusy gTok gPages).2
        (fetchGoogleFreeBusy goTok goPages).2 dm msDet gDet).events = st.events ∧
    ∃ e, (refresh st (fetchGraphFreeBusy gTok gPages).2
        (fetchGoogleFreeBusy goTok goPages).2 dm msDet gDet).err = some e ∧
      ((∃ s : ℕ, ¬ (200 ≤ s ∧ s < 300) ∧ s ≠ 429 ∧ s ≠ 503 ∧
          e = "Graph calendarView: " ++ toString s) ∨
       (∃ s : ℕ, ¬ (200 ≤ s ∧ s < 300) ∧ s ≠ 429 ∧ s ≠ 503 ∧
          ∃ suffix : String, e = "Google freeBusy: " ++ toString s ++ suffix)) := by
  rcases hg : (fetchGraphFreeBusy gTok gPages).2 with e | msl
  · have hshape : ∃ s : ℕ, ¬ (200 ≤ s ∧ s < 300) ∧ s ≠ 429 ∧ s ≠ 503 ∧
        e = "Graph calendarView: " ++ toString s := by
      rcases gTok with _ | tok
      · exact absurd hg (by simp [fetchGraphFreeBusy])
      · exact graphBusyLoop_error_shape gPages e hg
    exact ⟨rfl, rfl, e, rfl, Or.inl hshape⟩
  · rcases ho : (fetchGoogleFreeBusy goTok goPages).2 with e | gl
    · have hshape : ∃ s : ℕ, ¬ (200 ≤ s ∧ s < 300) ∧ s ≠ 429 ∧ s ≠ 503 ∧
          ∃ suffix : String, e = "Google freeBusy: " ++ toString s ++ suffix := by
        rcases goTok with _ | tok
        · exact absurd ho (by simp [fetchGoogleFreeBusy])
        · exact googleBusyLoop_error_shape goPages e ho
      exact ⟨rfl, rfl, e, rfl, Or.inr hshape⟩
    · exfalso
      rcases hfail with ⟨e, he⟩ | ⟨e, he⟩
      · rw [hg] at he
        exact Except.noConfusion he
      · rw [ho] at he
        exact Except.noConfusion he

/-- Witness for C4: a Microsoft fetch that answers 500 while the Google
token is absent; the previous state keeps its busy block. -/
theorem refresh_fetch_failure_witness :
    (((∃ e, (fetchGraphFreeBusy (some "tok") [⟨500, [], false⟩]).2 = Except.error e) ∨
      (∃ e, (fetchGoogleFreeBusy none []).2 = Except.error e)) ∧
    (refresh ⟨[⟨0, 1, Source.google⟩], [], none, false⟩
        (fetchGraphFreeBusy (some "tok") [⟨500, [], false⟩]).2
        (fetchGoogleFreeBusy none []).2 false (Except.ok []) (Except.ok [])).busy
      = [⟨0, 1, Source.google⟩] ∧
    (refresh ⟨[⟨0, 1, Source.google⟩], [], none, false⟩
        (fetchGraphFreeBusy (some "tok") [⟨500, [], false⟩]).2
        (fetchGoogleFreeBusy none []).2 false (Except.ok []) (Except.ok [])).events
      = [] ∧
    ∃ e, (refresh ⟨[⟨0, 1, Source.google⟩], [], none, false⟩
        (fetchGraphFreeBusy (some "tok") [⟨500, [], false⟩]).2
        (fetchGoogleFreeBusy none []).2 false (Except.ok []) (Except.ok [])).err = some e ∧
      ((∃ s : ℕ, ¬ (200 ≤ s ∧ s < 300) ∧ s ≠ 429 ∧ s ≠ 503 ∧
          e = "Graph calendarView: " ++ toString s) ∨
       (∃ s : ℕ, ¬ (200 ≤ s ∧ s < 300) ∧ s ≠ 429 ∧ s ≠ 503 ∧
          ∃ suffix : String, e = "Google freeBusy: " ++ toString s ++ suffix))) :=
  ⟨Or.inl ⟨"Graph calendarView: " ++ toString 500, rfl⟩,
    refresh_fetch_failure ⟨[⟨0, 1, Source.google⟩], [], none, false⟩ (some "tok") none
      [⟨500, [], false⟩] [] false (Except.ok []) (Except.ok [])
      (Or.inl ⟨"Graph calendarView: " ++ toString 500, rfl⟩)⟩

end CalendarApp
